import Mathlib

/-
  Verification of the Feistel block cipher implemented in
  src/cryptography-feistel/src/main.rs.

  Bytes (Rust u8) are modelled as Nat; the only operation that can
  overflow 8 bits is the left shift in bit_left, which is reduced mod 256,
  and the bitwise complement of a u8, which is XOR with 255.
  Vec<u8> is modelled as List Nat.
-/

namespace Feistel

/-- Embeds vec_xor: zips the two vectors (stopping at the shorter one)
and XORs elementwise. -/
def vec_xor (vec1 vec2 : List Nat) : List Nat :=
  (vec1.zip vec2).map fun p => p.1 ^^^ p.2

/-- Embeds vec_invert: bitwise complement of each byte, i.e. XOR with 255
for a u8. -/
def vec_invert (vect : List Nat) : List Nat :=
  vect.map fun x => x ^^^ 255

/-- Embeds bit_left: logical left shift of each byte by one bit,
the top bit being discarded (reduction mod 256). -/
def bit_left (vect : List Nat) : List Nat :=
  vect.map fun x => (x * 2) % 256

/-- Embeds Vec::swap(i, j): both elements are read before either is
written, so the result is l with positions i and j exchanged. Out-of-range
indices (which panic in Rust and never occur in this program) leave the
list unchanged here; the checked variant below models the panic. -/
def listSwap (l : List Nat) (i j : Nat) : List Nat :=
  (l.set i (l.getD j 0)).set j (l.getD i 0)

/-- Embeds permute_word: for i from 0 to len-1, swap position i with
position (i + key) % len of the current (already partially swapped)
word. -/
def permute_word (word : List Nat) (key : Nat) : List Nat :=
  (List.range word.length).foldl (fun w i => listSwap w i ((i + key) % w.length)) word

/-- Embeds f, the Feistel round function:
bit_left(vec_invert(vec_xor(right, key))). -/
def f (right : List Nat) (key : List Nat) : List Nat :=
  bit_left (vec_invert (vec_xor right key))

/-- Embeds keys_gen: round key i is permute_word(key, i) for i in 0..rounds;
the list is reversed when decrypt is true. -/
def keys_gen (key : List Nat) (decrypt : Bool) (rounds : Nat) : List (List Nat) :=
  let res := (List.range rounds).map fun i => permute_word key i
  if decrypt then res.reverse else res

/-- Embeds crypt_round: split the block at len/2 into left and right,
output right ++ xor(left, f(right, round_key)). -/
def crypt_round (block : List Nat) (round_key : List Nat) : List Nat :=
  let left := block.take (block.length / 2)
  let right := block.drop (block.length / 2)
  let new_right := vec_xor left (f right round_key)
  right ++ new_right

/-- Embeds crypt_block: generate the schedule, fold crypt_round over it,
then swap the two halves of the result. -/
def crypt_block (block : List Nat) (key : List Nat) (decrypt : Bool) (rounds : Nat) :
    List Nat :=
  let keys := keys_gen key decrypt rounds
  let b := List.foldl crypt_round block keys
  let left := b.take (b.length / 2)
  let right := b.drop (b.length / 2)
  right ++ left

/-- The final half-swap performed by crypt_block after the last round. -/
def swapHalves (b : List Nat) : List Nat :=
  b.drop (b.length / 2) ++ b.take (b.length / 2)

/-- The 8 bytes of the string budapesh, the demonstration block of main. -/
def demoBlock : List Nat := [98, 117, 100, 97, 112, 101, 115, 104]

/-- The 4 bytes of the string rust, the demonstration key of main. -/
def demoKey : List Nat := [114, 117, 115, 116]

/-- XOR of two cons cells peels off one element. -/
lemma vec_xor_cons (x y : Nat) (a b : List Nat) :
    vec_xor (x :: a) (y :: b) = (x ^^^ y) :: vec_xor a b := rfl

/-- The XOR of two vectors has the length of the shorter one. -/
lemma vec_xor_length (a b : List Nat) :
    (vec_xor a b).length = min a.length b.length := by
  simp [vec_xor]

/-- XORing twice with the same (at least as long) mask is the identity. -/
lemma vec_xor_cancel : ∀ (a b : List Nat), a.length ≤ b.length →
    vec_xor (vec_xor a b) b = a
  | [], _, _ => rfl
  | x :: a, y :: b, h => by
    rw [vec_xor_cons, vec_xor_cons, Nat.xor_cancel_right,
      vec_xor_cancel a b (by simpa using h)]
  | x :: a, [], h => by simp at h

/-- Element access in a vec_xor result, for indices below both lengths. -/
lemma vec_xor_getElem? : ∀ (a b : List Nat) (i : Nat),
    i < min a.length b.length →
    (vec_xor a b)[i]? = some (a.getD i 0 ^^^ b.getD i 0)
  | x :: a, y :: b, 0, _ => by
    rw [vec_xor_cons]
    simp
  | x :: a, y :: b, i + 1, h => by
    rw [vec_xor_cons]
    simp only [List.getElem?_cons_succ, List.getD_cons_succ]
    exact vec_xor_getElem? a b i (by simp at h; omega)
  | [], b, i, h => by simp at h
  | x :: a, [], i, h => by simp at h

/-- The round function f keeps the length of the shorter input. -/
lemma f_length (r k : List Nat) : (f r k).length = min r.length k.length := by
  simp [f, bit_left, vec_invert, vec_xor]

/-- A swap does not change the length. -/
lemma listSwap_length (l : List Nat) (i j : Nat) :
    (listSwap l i j).length = l.length := by
  simp [listSwap]

/-- Writing back the element already stored at a position is a no-op. -/
lemma set_getD_self : ∀ (l : List Nat) (i : Nat), l.set i (l.getD i 0) = l
  | [], _ => rfl
  | x :: l, 0 => rfl
  | x :: l, i + 1 => by
    simp only [List.getD_cons_succ, List.set_cons_succ]
    rw [set_getD_self l i]

/-- Swapping a position with itself leaves the list unchanged. -/
lemma listSwap_self (l : List Nat) (i : Nat) : listSwap l i i = l := by
  rw [listSwap, set_getD_self, set_getD_self]

/-- The cascading-swap fold preserves the length of the word. -/
lemma foldl_listSwap_length (key : Nat) : ∀ (is : List Nat) (w : List Nat),
    (is.foldl (fun w i => listSwap w i ((i + key) % w.length)) w).length = w.length
  | [], _ => rfl
  | i :: is, w => by
    rw [List.foldl_cons, foldl_listSwap_length key is, listSwap_length]

/-- The word permutation preserves the key length. -/
lemma permute_word_length (w : List Nat) (key : Nat) :
    (permute_word w key).length = w.length :=
  foldl_listSwap_length key (List.range w.length) w

/-- With round index 0 every swap targets its own source, so the fold is
the identity as long as all visited indices are in range. -/
lemma foldl_listSwap_zero : ∀ (is : List Nat) (w : List Nat),
    (∀ i ∈ is, i < w.length) →
    is.foldl (fun w i => listSwap w i ((i + 0) % w.length)) w = w
  | [], _, _ => rfl
  | i :: is, w, h => by
    have hi : i < w.length := h i (List.mem_cons_self ..)
    rw [List.foldl_cons]
    have hmod : (i + 0) % w.length = i := by
      rw [Nat.add_zero]
      exact Nat.mod_eq_of_lt hi
    rw [hmod, listSwap_self]
    exact foldl_listSwap_zero is w fun j hj => h j (List.mem_cons_of_mem _ hj)

/-- The half-swap keeps the length. -/
lemma swapHalves_length (b : List Nat) : (swapHalves b).length = b.length := by
  simp [swapHalves]
  omega

/-- The half-swap of an append of two equal-length halves exchanges them. -/
lemma swapHalves_append {l r : List Nat} (h : l.length = r.length) :
    swapHalves (l ++ r) = r ++ l := by
  have hlen : (l ++ r).length / 2 = l.length := by
    simp only [List.length_append]
    omega
  rw [swapHalves, hlen, List.take_left' rfl, List.drop_left' rfl]

/-- The two halves of an even-length list have equal length. -/
lemma take_drop_half_length {b : List Nat} (h : b.length % 2 = 0) :
    (b.take (b.length / 2)).length = (b.drop (b.length / 2)).length := by
  rw [List.length_take, List.length_drop, Nat.min_eq_left (Nat.div_le_self _ _)]
  omega

/-- The half-swap is an involution on even-length lists. -/
lemma swapHalves_swapHalves {b : List Nat} (h : b.length % 2 = 0) :
    swapHalves (swapHalves b) = b := by
  have h1 := take_drop_half_length h
  calc swapHalves (swapHalves b)
      = swapHalves (swapHalves (b.take (b.length / 2) ++ b.drop (b.length / 2))) := by
        rw [List.take_append_drop]
    _ = swapHalves (b.drop (b.length / 2) ++ b.take (b.length / 2)) := by
        rw [swapHalves_append h1]
    _ = b.take (b.length / 2) ++ b.drop (b.length / 2) := swapHalves_append h1.symm
    _ = b := List.take_append_drop _ _

/-- One round on an explicitly split even-length block. -/
lemma crypt_round_append {l r : List Nat} (h : l.length = r.length) (k : List Nat) :
    crypt_round (l ++ r) k = r ++ vec_xor l (f r k) := by
  have hlen : (l ++ r).length / 2 = l.length := by
    simp only [List.length_append]
    omega
  simp only [crypt_round, hlen, List.take_left' rfl, List.drop_left' rfl]

/-- One round preserves the block length as long as the round key covers
the left half. -/
lemma crypt_round_length (b k : List Nat) (hk : b.length / 2 ≤ k.length) :
    (crypt_round b k).length = b.length := by
  simp only [crypt_round, List.length_append, List.length_drop, vec_xor_length,
    f_length, List.length_take]
  omega

/-- The classical Feistel inversion of a single round: reapplying the round
with the same key after swapping the halves back undoes the round. -/
lemma crypt_round_inv {l r k : List Nat} (hl : l.length = r.length)
    (hk : r.length ≤ k.length) :
    crypt_round (swapHalves (crypt_round (l ++ r) k)) k = r ++ l := by
  have hf : (f r k).length = r.length := by
    rw [f_length, Nat.min_eq_left hk]
  have hx : (vec_xor l (f r k)).length = r.length := by
    rw [vec_xor_length, hf, hl, Nat.min_self]
  rw [crypt_round_append hl, swapHalves_append hx.symm,
    crypt_round_append hx, vec_xor_cancel l (f r k) (le_of_eq (hl.trans hf.symm))]

/-- Whole-block form of the single round inversion. -/
lemma crypt_round_inv2 {b k : List Nat} (hb : b.length % 2 = 0)
    (hk : b.length / 2 ≤ k.length) :
    crypt_round (swapHalves (crypt_round b k)) k = swapHalves b := by
  have hl := take_drop_half_length hb
  have hk2 : (b.drop (b.length / 2)).length ≤ k.length := by
    rw [List.length_drop]
    omega
  have h2 := crypt_round_inv (k := k) hl hk2
  rw [List.take_append_drop] at h2
  rw [h2, swapHalves]

/-- Folding rounds preserves the block length when all round keys cover
the half block. -/
lemma foldl_crypt_round_length : ∀ (ks : List (List Nat)) (b : List Nat),
    (∀ k ∈ ks, b.length / 2 ≤ k.length) →
    (List.foldl crypt_round b ks).length = b.length
  | [], _, _ => rfl
  | k :: ks, b, h => by
    have hk : b.length / 2 ≤ k.length := h k (List.mem_cons_self ..)
    have hlen := crypt_round_length b k hk
    rw [List.foldl_cons, foldl_crypt_round_length ks (crypt_round b k)
      (fun j hj => by rw [hlen]; exact h j (List.mem_cons_of_mem _ hj)), hlen]

/-- Running the rounds backwards over the half-swapped result of running
them forwards recovers the half-swapped input. -/
lemma feistel_inv (ks : List (List Nat)) : ∀ (b : List Nat), b.length % 2 = 0 →
    (∀ k ∈ ks, b.length / 2 ≤ k.length) →
    List.foldl crypt_round (swapHalves (List.foldl crypt_round b ks)) ks.reverse =
      swapHalves b := by
  induction ks using List.reverseRecOn with
  | nil =>
    intro b _ _
    rfl
  | append_singleton ks k ih =>
    intro b hb hks
    have hmem : ∀ j ∈ ks, b.length / 2 ≤ j.length := fun j hj =>
      hks j (List.mem_append_left _ hj)
    have hM : (List.foldl crypt_round b ks).length = b.length :=
      foldl_crypt_round_length ks b hmem
    have hbM : (List.foldl crypt_round b ks).length % 2 = 0 := by
      rw [hM]
      exact hb
    have hkM : (List.foldl crypt_round b ks).length / 2 ≤ k.length := by
      rw [hM]
      exact hks k (List.mem_append_right _ (List.mem_singleton_self k))
    rw [List.foldl_append, List.reverse_append, List.reverse_singleton,
      List.singleton_append, List.foldl_cons, List.foldl_cons, List.foldl_nil,
      crypt_round_inv2 hbM hkM]
    exact ih b hb hmem

/-- The encrypt-order schedule is the list of word permutations of the key. -/
lemma keys_gen_false (K : List Nat) (R : Nat) :
    keys_gen K false R = (List.range R).map fun i => permute_word K i := rfl

/-- The decrypt-order schedule is the reversal of the encrypt-order one. -/
lemma keys_gen_true (K : List Nat) (R : Nat) :
    keys_gen K true R = (keys_gen K false R).reverse := rfl

/-- Every round key in a schedule has the length of the base key. -/
lemma keys_gen_mem {k K : List Nat} {d : Bool} {R : Nat}
    (h : k ∈ keys_gen K d R) : k.length = K.length := by
  have h2 : k ∈ keys_gen K false R := by
    cases d
    · exact h
    · rw [keys_gen_true, List.mem_reverse] at h
      exact h
  rw [keys_gen_false, List.mem_map] at h2
  obtain ⟨i, _, hi⟩ := h2
  rw [← hi, permute_word_length]

/-- crypt_block is the fold of the rounds followed by the half-swap. -/
lemma crypt_block_eq (B K : List Nat) (d : Bool) (R : Nat) :
    crypt_block B K d R =
      swapHalves (List.foldl crypt_round B (keys_gen K d R)) := rfl

/-- Round-trip identity for any key at least as long as the half block. -/
lemma roundtrip_ge (B K : List Nat) (R : Nat) (hB : B.length % 2 = 0)
    (hK : B.length / 2 ≤ K.length) :
    crypt_block (crypt_block B K false R) K true R = B := by
  have hmem : ∀ k ∈ keys_gen K false R, B.length / 2 ≤ k.length := fun k hk => by
    rw [keys_gen_mem hk]
    exact hK
  rw [crypt_block_eq B K false R, crypt_block_eq _ K true R, keys_gen_true,
    feistel_inv (keys_gen K false R) B hB hmem]
  exact swapHalves_swapHalves hB

/-- Rust slice expression l[a..b]: none models the panic when the bounds
are out of range. -/
def slice (l : List Nat) (a b : Nat) : Option (List Nat) :=
  if a ≤ b ∧ b ≤ l.length then some ((l.take b).drop a) else none

/-- Checked Vec::swap: none models the Rust panic on an out-of-range
index. -/
def listSwapChecked (l : List Nat) (i j : Nat) : Option (List Nat) :=
  if i < l.length ∧ j < l.length then some (listSwap l i j) else none

/-- Checked loop body of permute_word: none models the panic of the modulo
on an empty word (division by zero) and the swap panic. -/
def permuteLoop (key : Nat) : List Nat → List Nat → Option (List Nat)
  | w, [] => some w
  | w, i :: is =>
    if w.length = 0 then none
    else
      match listSwapChecked w i ((i + key) % w.length) with
      | some w2 => permuteLoop key w2 is
      | none => none

/-- Checked permute_word. -/
def permute_wordChecked (word : List Nat) (key : Nat) : Option (List Nat) :=
  permuteLoop key word (List.range word.length)

/-- Checked loop of keys_gen, collecting one round key per round index. -/
def keysLoop (key : List Nat) : List Nat → Option (List (List Nat))
  | [] => some []
  | i :: is =>
    match permute_wordChecked key i, keysLoop key is with
    | some k, some rest => some (k :: rest)
    | _, _ => none

/-- Checked keys_gen. -/
def keys_genChecked (key : List Nat) (decrypt : Bool) (rounds : Nat) :
    Option (List (List Nat)) :=
  match keysLoop key (List.range rounds) with
  | some res => some (if decrypt then res.reverse else res)
  | none => none

/-- Checked crypt_round: the two slice expressions are the only operations
that could panic. -/
def crypt_roundChecked (block round_key : List Nat) : Option (List Nat) :=
  match slice block 0 (block.length / 2),
      slice block (block.length / 2) block.length with
  | some left, some right => some (right ++ vec_xor left (f right round_key))
  | _, _ => none

/-- Checked loop of the rounds in crypt_block. -/
def cryptLoop : List Nat → List (List Nat) → Option (List Nat)
  | b, [] => some b
  | b, k :: ks =>
    match crypt_roundChecked b k with
    | some b2 => cryptLoop b2 ks
    | none => none

/-- Checked crypt_block: every panic opportunity of the Rust code is
reflected as a none. -/
def crypt_blockChecked (block key : List Nat) (decrypt : Bool) (rounds : Nat) :
    Option (List Nat) :=
  match keys_genChecked key decrypt rounds with
  | some keys =>
    match cryptLoop block keys with
    | some b =>
      match slice b 0 (b.length / 2), slice b (b.length / 2) b.length with
      | some left, some right => some (right ++ left)
      | _, _ => none
    | none => none
  | none => none

/-- The first-half slice is always in bounds. -/
lemma slice_front (l : List Nat) :
    slice l 0 (l.length / 2) = some (l.take (l.length / 2)) := by
  rw [slice, if_pos ⟨Nat.zero_le _, Nat.div_le_self _ _⟩, List.drop_zero]

/-- The second-half slice is always in bounds. -/
lemma slice_back (l : List Nat) :
    slice l (l.length / 2) l.length = some (l.drop (l.length / 2)) := by
  rw [slice, if_pos ⟨Nat.div_le_self _ _, le_refl _⟩, List.take_length]

/-- The checked round never panics and agrees with crypt_round. -/
lemma crypt_roundChecked_eq (b k : List Nat) :
    crypt_roundChecked b k = some (crypt_round b k) := by
  rw [crypt_roundChecked, slice_front, slice_back]
  rfl

/-- The checked permutation loop never panics when every visited index is
in range, and agrees with the cascading-swap fold. -/
lemma permuteLoop_eq (key : Nat) : ∀ (is : List Nat) (w : List Nat),
    (∀ i ∈ is, i < w.length) →
    permuteLoop key w is =
      some (is.foldl (fun w i => listSwap w i ((i + key) % w.length)) w)
  | [], _, _ => rfl
  | i :: is, w, h => by
    have hi : i < w.length := h i (List.mem_cons_self ..)
    have hw : ¬w.length = 0 := by omega
    have hj : (i + key) % w.length < w.length := Nat.mod_lt _ (by omega)
    rw [permuteLoop, if_neg hw, listSwapChecked, if_pos ⟨hi, hj⟩,
      List.foldl_cons]
    exact permuteLoop_eq key is (listSwap w i ((i + key) % w.length))
      fun j hjm => by
        rw [listSwap_length]
        exact h j (List.mem_cons_of_mem _ hjm)

/-- The checked word permutation never panics: in particular the modulo is
never evaluated on an empty word, since the loop body never runs then. -/
lemma permute_wordChecked_eq (word : List Nat) (key : Nat) :
    permute_wordChecked word key = some (permute_word word key) :=
  permuteLoop_eq key (List.range word.length) word fun _ hi => List.mem_range.mp hi

/-- The checked key-collection loop never panics. -/
lemma keysLoop_eq (key : List Nat) : ∀ (is : List Nat),
    keysLoop key is = some (is.map fun i => permute_word key i)
  | [] => rfl
  | i :: is => by
    rw [keysLoop, permute_wordChecked_eq, keysLoop_eq key is, List.map_cons]

/-- The checked schedule generation never panics. -/
lemma keys_genChecked_eq (key : List Nat) (d : Bool) (R : Nat) :
    keys_genChecked key d R = some (keys_gen key d R) := by
  rw [keys_genChecked, keysLoop_eq]
  rfl

/-- The checked round loop never panics. -/
lemma cryptLoop_eq : ∀ (ks : List (List Nat)) (b : List Nat),
    cryptLoop b ks = some (List.foldl crypt_round b ks)
  | [], _ => rfl
  | k :: ks, b => by
    rw [cryptLoop, crypt_roundChecked_eq, List.foldl_cons]
    exact cryptLoop_eq ks (crypt_round b k)

/-- Claim C1: for every block B of even length, every key K of exactly half
the block length, and every round count R at most 255, decrypting the
encryption of B with the same key and round count returns exactly B. -/
theorem roundtrip_identity (B K : List Nat) (R : Nat) (hB : B.length % 2 = 0)
    (hK : K.length = B.length / 2) (_hR : R ≤ 255) :
    crypt_block (crypt_block B K false R) K true R = B :=
  roundtrip_ge B K R hB (le_of_eq hK.symm)

/-- Witness for claim C1 at B equal to two bytes, K one byte, R two rounds. -/
theorem roundtrip_identity_witness :
    ([1, 2] : List Nat).length % 2 = 0 ∧
      ([3] : List Nat).length = ([1, 2] : List Nat).length / 2 ∧
      (2 : Nat) ≤ 255 ∧
      crypt_block (crypt_block [1, 2] [3] false 2) [3] true 2 = [1, 2] :=
  ⟨by decide, by decide, by decide,
    roundtrip_identity [1, 2] [3] 2 (by decide) (by decide) (by decide)⟩

/-- Claim C2: one Feistel round is self-decrypting without f being
invertible: reapplying crypt_round with the same round key to its output
with the halves swapped back yields the original halves in swapped order,
and one further half-swap recovers the original block, for every round key
of the half-block length, regardless of what f outputs. -/
theorem round_self_decrypting (l r k : List Nat) (hl : l.length = r.length)
    (hk : k.length = r.length) :
    crypt_round (swapHalves (crypt_round (l ++ r) k)) k = r ++ l ∧
      swapHalves (r ++ l) = l ++ r :=
  ⟨crypt_round_inv hl (le_of_eq hk.symm), swapHalves_append hl.symm⟩

/-- Witness for claim C2 at a one-byte half block; the right half 200 has
its high bit set, so bit_left discards information there. -/
theorem round_self_decrypting_witness :
    ([7] : List Nat).length = ([200] : List Nat).length ∧
      ([9] : List Nat).length = ([200] : List Nat).length ∧
      (crypt_round (swapHalves (crypt_round ([7] ++ [200]) [9])) [9] = [200] ++ [7] ∧
        swapHalves ([200] ++ [7]) = [7] ++ [200]) :=
  ⟨by decide, by decide, round_self_decrypting [7] [200] [9] (by decide) (by decide)⟩

/-- Claim C3: for every base key K and round count R at most 255, the r-th
round key of the encrypt-order schedule is permute_word K r for every
r below R, and the decrypt-direction schedule is exactly the element-order
reversal of the encrypt-direction schedule. -/
theorem key_schedule_structure (K : List Nat) (R : Nat) (_hR : R ≤ 255) :
    (∀ r, r < R → (keys_gen K false R)[r]? = some (permute_word K r)) ∧
      keys_gen K true R = (keys_gen K false R).reverse := by
  refine ⟨fun r hr => ?_, keys_gen_true K R⟩
  rw [keys_gen_false, List.getElem?_map, List.getElem?_range hr]
  rfl

/-- Witness for claim C3 at a two-byte key with three rounds, element 1. -/
theorem key_schedule_structure_witness :
    (3 : Nat) ≤ 255 ∧
      (keys_gen [4, 5] false 3)[1]? = some (permute_word [4, 5] 1) ∧
      keys_gen [4, 5] true 3 = (keys_gen [4, 5] false 3).reverse :=
  ⟨by decide, (key_schedule_structure [4, 5] 3 (by decide)).1 1 (by decide),
    (key_schedule_structure [4, 5] 3 (by decide)).2⟩

/-- Claim C4: with zero rounds the schedule is empty, no round transform is
applied, and crypt_block returns the block with its two halves exchanged. -/
theorem zero_rounds_half_swap (B K : List Nat) (_hB : B.length % 2 = 0) :
    crypt_block B K false 0 =
      B.drop (B.length / 2) ++ B.take (B.length / 2) := rfl

/-- Witness for claim C4 at a four-byte block. -/
theorem zero_rounds_half_swap_witness :
    ([1, 2, 3, 4] : List Nat).length % 2 = 0 ∧
      crypt_block [1, 2, 3, 4] [7] false 0 =
        ([1, 2, 3, 4] : List Nat).drop (([1, 2, 3, 4] : List Nat).length / 2) ++
          ([1, 2, 3, 4] : List Nat).take (([1, 2, 3, 4] : List Nat).length / 2) :=
  ⟨by decide, zero_rounds_half_swap [1, 2, 3, 4] [7] (by decide)⟩

/-- Counterexample to claim C5: with block of two bytes and an empty key,
one encryption round returns a block of length 1, not 2. -/
theorem length_not_preserved_cex :
    (crypt_block [0, 0] [] false 1).length ≠ ([0, 0] : List Nat).length := by
  decide

/-- Claim C5 as amended: crypt_block preserves the block length for every
block, direction flag and round count, provided the key is at least as
long as half the block. -/
theorem length_preserved_amended (B K : List Nat) (d : Bool) (R : Nat)
    (hK : B.length / 2 ≤ K.length) :
    (crypt_block B K d R).length = B.length := by
  rw [crypt_block_eq, swapHalves_length]
  exact foldl_crypt_round_length _ B fun k hk => by
    rw [keys_gen_mem hk]
    exact hK

/-- Witness for the amended claim C5 at a two-byte block and two-byte key. -/
theorem length_preserved_amended_witness :
    ([9, 8] : List Nat).length / 2 ≤ ([7, 6] : List Nat).length ∧
      (crypt_block [9, 8] [7, 6] false 1).length = ([9, 8] : List Nat).length :=
  ⟨by decide, length_preserved_amended [9, 8] [7, 6] false 1 (by decide)⟩

/-- Claim C6: vec_xor returns a sequence of length the minimum of the two
input lengths, whose i-th element is the XOR of the i-th input elements;
elements of the longer input beyond that length are dropped. -/
theorem vec_xor_truncation_spec (a b : List Nat) :
    (vec_xor a b).length = min a.length b.length ∧
      ∀ i, i < min a.length b.length →
        (vec_xor a b)[i]? = some (a.getD i 0 ^^^ b.getD i 0) :=
  ⟨vec_xor_length a b, fun i hi => vec_xor_getElem? a b i hi⟩

/-- Witness for claim C6 at inputs of lengths 3 and 2, index 1. -/
theorem vec_xor_truncation_spec_witness :
    (vec_xor [1, 2, 3] [4, 5]).length =
        min ([1, 2, 3] : List Nat).length ([4, 5] : List Nat).length ∧
      (vec_xor [1, 2, 3] [4, 5])[1]? =
        some (([1, 2, 3] : List Nat).getD 1 0 ^^^ ([4, 5] : List Nat).getD 1 0) :=
  ⟨(vec_xor_truncation_spec [1, 2, 3] [4, 5]).1,
    (vec_xor_truncation_spec [1, 2, 3] [4, 5]).2 1 (by decide)⟩

/-- Claim C7: with the 8 bytes of budapesh, the 4-byte key rust and 10
rounds, decrypting the encryption returns the original block exactly, and
the intermediate ciphertext differs from the plaintext. -/
theorem demo_scenario :
    crypt_block (crypt_block demoBlock demoKey false 10) demoKey true 10 = demoBlock ∧
      crypt_block demoBlock demoKey false 10 ≠ demoBlock := by
  constructor
  · decide
  · decide

/-- Claim C8: for every block (empty and odd lengths included), every key
(empty or of any length), every direction and every round count up to 255,
the checked model of crypt_block, in which every Rust panic opportunity
(slice bounds, swap bounds, modulo by zero) returns none, never panics and
returns exactly the value of crypt_block. -/
theorem crypt_block_total (block key : List Nat) (d : Bool) (R : Nat)
    (_hR : R ≤ 255) :
    crypt_blockChecked block key d R = some (crypt_block block key d R) := by
  simp only [crypt_blockChecked, keys_genChecked_eq, cryptLoop_eq, slice_front,
    slice_back, crypt_block_eq]
  rfl

/-- Witness for claim C8 at an odd-length block and an empty key. -/
theorem crypt_block_total_witness :
    (3 : Nat) ≤ 255 ∧
      crypt_blockChecked [1, 2, 3] [] true 3 =
        some (crypt_block [1, 2, 3] [] true 3) :=
  ⟨by decide, crypt_block_total [1, 2, 3] [] true 3 (by decide)⟩

/-- Claim C9: the word permutation at round index 0 is the identity: every
swap in the cascading-swap loop targets its own source index. -/
theorem permute_word_zero_id (K : List Nat) : permute_word K 0 = K :=
  foldl_listSwap_zero (List.range K.length) K fun _ hi => List.mem_range.mp hi

/-- Claim C10: the round-trip identity also holds for keys strictly longer
than half the block, because vec_xor truncates the contribution of f to the
half-block length, so key bytes beyond that never influence the result. -/
theorem roundtrip_long_key (B K : List Nat) (R : Nat) (hB : B.length % 2 = 0)
    (hK : B.length / 2 ≤ K.length) (_hR : R ≤ 255) :
    crypt_block (crypt_block B K false R) K true R = B :=
  roundtrip_ge B K R hB hK

/-- Witness for claim C10 at a two-byte block and a three-byte key. -/
theorem roundtrip_long_key_witness :
    ([1, 2] : List Nat).length % 2 = 0 ∧
      ([1, 2] : List Nat).length / 2 ≤ ([3, 4, 5] : List Nat).length ∧
      (1 : Nat) ≤ 255 ∧
      crypt_block (crypt_block [1, 2] [3, 4, 5] false 1) [3, 4, 5] true 1 = [1, 2] :=
  ⟨by decide, by decide, by decide,
    roundtrip_long_key [1, 2] [3, 4, 5] 1 (by decide) (by decide) (by decide)⟩

end Feistel
